import Mathlib

/-!
# Verification of the BufferedSpi channel specification

The repository contains only the interface header
`src/ISM43362/BufferedSpi/BufferedSpi.h`; the implementation files
(`BufferedSpi.cpp`, `MyBuffer.h`) are not under `src/`.  The behavioural
definitions below are therefore modelled from the specification
(`spec.md`), faithful to its words, and the claims are settled against
this model.
-/

namespace BufferedSpiModel

/-- Modelled from the spec: the `MyBuffer` ring buffer owned by
`BufferedSpi` (`MyBuffer.h` is not under `src/`).  Spec §3: fixed
capacity `C`, stored-element count, FIFO order.  `data` lists the
buffered bytes oldest-first, so the count is `data.length`. -/
structure RingBuffer where
  capacity : Nat
  data : List Nat
  deriving Repr, DecidableEq

namespace RingBuffer

/-- A freshly allocated ring buffer of the given capacity (spec §3:
allocated at channel construction with a fixed capacity). -/
def empty (c : Nat) : RingBuffer := ⟨c, []⟩

/-- Spec §4.1: `available() -> count`. -/
def available (b : RingBuffer) : Nat := b.data.length

/-- Modelled from the spec (§3, §4.1): `push` with the lossy
overwrite-oldest-on-full policy: when `count == C` the oldest entry is
discarded to admit the new byte. -/
def push (b : RingBuffer) (x : Nat) : RingBuffer :=
  if b.data.length < b.capacity then ⟨b.capacity, b.data ++ [x]⟩
  else ⟨b.capacity, b.data.tail ++ [x]⟩

/-- Push a whole list of bytes, oldest first. -/
def pushList (b : RingBuffer) (l : List Nat) : RingBuffer :=
  l.foldl push b

/-- Spec §4.1: `pop() -> Option<T>`, FIFO. -/
def pop (b : RingBuffer) : Option (Nat × RingBuffer) :=
  match b.data with
  | [] => none
  | x :: xs => some (x, ⟨b.capacity, xs⟩)

/-- Spec §4.1: `peek() -> Option<T>` without consuming. -/
def peek (b : RingBuffer) : Option Nat := b.data.head?

/-- Spec §4.1: `clear()`. -/
def clear (b : RingBuffer) : RingBuffer := ⟨b.capacity, []⟩

/-- Pop up to `n` bytes, FIFO order, returning them oldest first
together with the remaining buffer. -/
def popN : RingBuffer → Nat → List Nat × RingBuffer
  | b, 0 => ([], b)
  | b, n + 1 =>
    match b.pop with
    | none => ([], b)
    | some (x, b') =>
      let p := popN b' n
      (x :: p.1, p.2)

/-- Drain the whole buffer by repeated pops (FIFO order). -/
def drainAll (b : RingBuffer) : List Nat × RingBuffer :=
  b.popN b.available

theorem push_capacity (b : RingBuffer) (x : Nat) :
    (b.push x).capacity = b.capacity := by
  unfold push; split <;> rfl

theorem pushList_capacity (l : List Nat) :
    ∀ b : RingBuffer, (b.pushList l).capacity = b.capacity := by
  induction l with
  | nil => intro b; rfl
  | cons x xs ih =>
    intro b
    show ((b.push x).pushList xs).capacity = b.capacity
    rw [ih (b.push x), push_capacity]

theorem pushList_append (b : RingBuffer) (l₁ l₂ : List Nat) :
    b.pushList (l₁ ++ l₂) = (b.pushList l₁).pushList l₂ := by
  unfold pushList
  exact List.foldl_append _ _ _ _

/-- When the pushed bytes fit (no overflow), `pushList` appends. -/
theorem pushList_data_of_le (l : List Nat) :
    ∀ b : RingBuffer, b.data.length + l.length ≤ b.capacity →
      (b.pushList l).data = b.data ++ l := by
  induction l with
  | nil => intro b _; simp [pushList]
  | cons x xs ih =>
    intro b h
    have hlt : b.data.length < b.capacity := by
      simp at h; omega
    show ((b.push x).pushList xs).data = b.data ++ (x :: xs)
    have hp : b.push x = ⟨b.capacity, b.data ++ [x]⟩ := by
      unfold push; rw [if_pos hlt]
    rw [hp, ih ⟨b.capacity, b.data ++ [x]⟩ (by simp at h ⊢; omega)]
    simp

/-- General `pushList` behaviour under the overwrite policy: the buffer
keeps exactly the most recent bytes, i.e. the stored data is the suffix
of `old ++ new` that fits in the capacity. -/
theorem pushList_data (l : List Nat) :
    ∀ b : RingBuffer, b.data.length ≤ b.capacity → 0 < b.capacity →
      (b.pushList l).data =
        (b.data ++ l).drop (b.data.length + l.length - b.capacity) := by
  induction l with
  | nil =>
    intro b h _
    simp only [pushList, List.foldl_nil, List.append_nil, List.length_nil,
      Nat.add_zero]
    rw [Nat.sub_eq_zero_of_le h, List.drop_zero]
  | cons x xs ih =>
    intro b h hC
    show ((b.push x).pushList xs).data = _
    by_cases hlt : b.data.length < b.capacity
    · have hp : b.push x = ⟨b.capacity, b.data ++ [x]⟩ := by
        unfold push; rw [if_pos hlt]
      rw [hp, ih ⟨b.capacity, b.data ++ [x]⟩ (by simp; omega) hC]
      show List.drop ((b.data ++ [x]).length + xs.length - b.capacity)
            ((b.data ++ [x]) ++ xs)
          = List.drop (b.data.length + (x :: xs).length - b.capacity)
            (b.data ++ x :: xs)
      have e1 : (b.data ++ [x]).length + xs.length - b.capacity
          = b.data.length + (x :: xs).length - b.capacity := by simp; omega
      have e2 : (b.data ++ [x]) ++ xs = b.data ++ x :: xs := by simp
      rw [e1, e2]
    · have heq : b.data.length = b.capacity := by omega
      obtain ⟨d, ds, hd⟩ : ∃ d ds, b.data = d :: ds := by
        cases hdata : b.data with
        | nil => exfalso; rw [hdata] at heq; simp at heq; omega
        | cons d ds => exact ⟨d, ds, rfl⟩
      have hp : b.push x = ⟨b.capacity, ds ++ [x]⟩ := by
        unfold push; rw [if_neg hlt, hd]; rfl
      have hds : ds.length + 1 = b.capacity := by
        rw [hd] at heq; simpa using heq
      rw [hp, ih ⟨b.capacity, ds ++ [x]⟩ (by simp; omega) hC, hd]
      show List.drop ((ds ++ [x]).length + xs.length - b.capacity)
            ((ds ++ [x]) ++ xs)
          = List.drop ((d :: ds).length + (x :: xs).length - b.capacity)
            ((d :: ds) ++ x :: xs)
      have e1 : (ds ++ [x]).length + xs.length - b.capacity = xs.length := by
        simp; omega
      have e2 : (d :: ds).length + (x :: xs).length - b.capacity
          = xs.length + 1 := by simp; omega
      have e3 : (ds ++ [x]) ++ xs = ds ++ x :: xs := by simp
      have e4 : (d :: ds) ++ x :: xs = d :: (ds ++ x :: xs) := by simp
      rw [e1, e2, e3, e4, List.drop_succ_cons]

/-- `popN` takes the oldest `n` bytes and leaves the rest. -/
theorem popN_eq (n : Nat) :
    ∀ b : RingBuffer, b.popN n = (b.data.take n, ⟨b.capacity, b.data.drop n⟩) := by
  induction n with
  | zero => intro b; simp [popN]
  | succ n ih =>
    intro b
    cases hb : b.data with
    | nil =>
      obtain ⟨c, d⟩ := b
      simp at hb
      subst hb
      simp [popN, pop]
    | cons x xs =>
      have hp : b.pop = some (x, ⟨b.capacity, xs⟩) := by
        unfold pop; rw [hb]
      simp [popN, hp, ih ⟨b.capacity, xs⟩, hb]

/-- Draining the whole buffer returns exactly its contents, FIFO. -/
theorem drainAll_eq (b : RingBuffer) :
    b.drainAll = (b.data, ⟨b.capacity, []⟩) := by
  unfold drainAll available
  rw [popN_eq]
  simp

end RingBuffer

/-! ## The channel -/

/-- POSIX-style error numbers (spec §6: exact codes are
implementation-defined; the header names EAGAIN, ESPIPE, EBADF-class
errors, returned negated). -/
def EAGAIN : Int := 11

def EBADF : Int := 9

def ESPIPE : Int := 29

/-- Modelled from the spec: the observable state of a
`BufferedSpi` channel (`BufferedSpi.cpp` is not under `src/`).
Spec §2/§4.5: the channel owns a tx and an rx ring buffer, the nss
chip-select line, and can be CLOSED; `blocking` is the FileHandle
blocking mode consulted by `read`. -/
structure ChannelState where
  txbuf : RingBuffer
  rxbuf : RingBuffer
  closed : Bool
  blocking : Bool
  nss : Bool
  deriving Repr, DecidableEq

/-- Modelled from the spec: the peer module on the other side of the
SPI bus.  `pending` is the sequence of words it will deliver while the
data-ready line is high (spec §4.2: `peer_has_data()` samples the
data-ready input). -/
structure Peer where
  pending : List Nat
  deriving Repr, DecidableEq

/-- Spec §4.2: the data-ready line is high while the peer has data. -/
def Peer.dataready (p : Peer) : Bool := !p.pending.isEmpty

/-- Construction (spec §6): both ring buffers allocated with the given
capacity, channel open, blocking by default, nss deasserted. -/
def init (bufSize : Nat) : ChannelState :=
  ⟨RingBuffer.empty bufSize, RingBuffer.empty bufSize, false, true, false⟩

/-- Modelled from the spec (§4.5 `write`): append the bytes to the tx
ring buffer (overwrite-oldest on overflow) and return the number of
bytes accepted; on a CLOSED channel fail with a bad-descriptor error
(spec §4.5 `close`). -/
def write (s : ChannelState) (data : List Nat) : Int × ChannelState :=
  if s.closed then (-EBADF, s)
  else ((data.length : Int), { s with txbuf := s.txbuf.pushList data })

/-- Modelled from the spec (§4.5 `read`, §5): one transfer attempt:
assert nss, then exchange words until the tx buffer is empty and
`peer_has_data()` is false — every word received while data-ready is
high is appended to the rx ring buffer, the tx bytes are shifted out
onto the bus — then deassert nss. -/
def transferAttempt (s : ChannelState) (p : Peer) : ChannelState × Peer :=
  ({ s with txbuf := s.txbuf.clear,
            rxbuf := s.rxbuf.pushList p.pending,
            nss := false },
   ⟨[]⟩)

/-- Outcome of `read(buffer, length)`.  `blockedWaiting` stands for the
blocking call that is still waiting for rx data (it has not returned,
and never returns an error by timeout). -/
inductive ReadResult where
  | bytes (l : List Nat)
  | wouldBlock
  | blockedWaiting
  | badDescriptor
  deriving Repr, DecidableEq

/-- The value a completed `read` call returns: the byte count for a
successful read, a negative errno for a failure, and `none` for a call
that is still blocked (it has not returned anything). -/
def ReadResult.retValue : ReadResult → Option Int
  | .bytes l => some (l.length : Int)
  | .wouldBlock => some (-EAGAIN)
  | .badDescriptor => some (-EBADF)
  | .blockedWaiting => none

/-- Modelled from the spec (§4.5 `read(buffer, length)`): if the rx
ring buffer has data, pop up to `length` bytes and return the count
immediately; if empty and non-blocking, fail with would-block; if
empty and blocking, perform one transfer attempt and, if it produced
nothing, wait indefinitely (no built-in timeout).  A CLOSED channel
fails with a bad-descriptor error. -/
def fileRead (s : ChannelState) (p : Peer) (length : Nat) :
    ReadResult × ChannelState × Peer :=
  if s.closed then (.badDescriptor, s, p)
  else if 0 < s.rxbuf.available then
    let q := s.rxbuf.popN length
    (.bytes q.1, { s with rxbuf := q.2 }, p)
  else if !s.blocking then (.wouldBlock, s, p)
  else
    let t := transferAttempt s p
    if 0 < t.1.rxbuf.available then
      let q := t.1.rxbuf.popN length
      (.bytes q.1, { t.1 with rxbuf := q.2 }, t.2)
    else (.blockedWaiting, t.1, t.2)

/-- Modelled from the spec (§4.5 `readable`): 1 iff the rx ring buffer
has at least one byte; triggers no transfer and changes no state. -/
def readable (s : ChannelState) : Int × ChannelState :=
  ((if 0 < s.rxbuf.available then 1 else 0), s)

/-- Modelled from the spec (§4.5 `writeable`): always 1 — the tx buffer
uses the overwrite-on-full policy instead of backpressure. -/
def writeable (s : ChannelState) : Int × ChannelState :=
  (1, s)

/-- Modelled from the spec (§4.5 `getc`): single-byte read built atop
the rx ring buffer; returns -1 instead of blocking when nothing is
available. -/
def getc (s : ChannelState) : Int × ChannelState :=
  match s.rxbuf.pop with
  | none => (-1, s)
  | some (x, rx) => ((x : Int), { s with rxbuf := rx })

/-- Modelled from the spec (§4.5 `get16b`): single 16-bit-unit read
built atop the rx ring buffer; returns -1 instead of blocking when a
full unit is not available.  The spec fixes no byte order inside the
unit; the model takes the older byte as the low byte. -/
def get16b (s : ChannelState) : Int × ChannelState :=
  if s.rxbuf.available < 2 then (-1, s)
  else
    match s.rxbuf.pop with
    | none => (-1, s)
    | some (lo, rx) =>
      match rx.pop with
      | none => (-1, s)
      | some (hi, rx') => (((lo + 256 * hi : Nat) : Int), { s with rxbuf := rx' })

/-- Modelled from the spec (§4.5 `close`): transition to CLOSED;
idempotent; returns 0. -/
def close (s : ChannelState) : Int × ChannelState :=
  (0, { s with closed := true })

/-- Modelled from the spec (§4.5 `seek`): a stream device is not
seekable — fail with a "not seekable" error for every input. -/
def seek (s : ChannelState) (offset : Int) (whence : Int) : Int :=
  -ESPIPE

/-- Modelled from the spec (header, `read()` / `read(int max)`): pull
words from the SPI port into `_rxbuf` (up to `max` of them for the
bounded overload) and return the number of bytes read from the port
and appended to `_rxbuf`. -/
def readFromPort (s : ChannelState) (p : Peer) (max : Option Nat) :
    Int × ChannelState × Peer :=
  let words := match max with
    | none => p.pending
    | some m => p.pending.take m
  let rest := match max with
    | none => []
    | some m => p.pending.drop m
  ((words.length : Int), { s with rxbuf := s.rxbuf.pushList words }, ⟨rest⟩)

/-- The FIFO round-trip experiment of spec §8: perform a sequence of
writes, drain the tx buffer onto the bus in FIFO order, let the bus
deliver those bytes back to the rx ring buffer (loopback peer), and
read them out through `read(buffer, length)`. -/
def roundTrip (capacity : Nat) (writes : List (List Nat)) : List Nat :=
  let s1 := writes.foldl (fun s w => (write s w).2) (init capacity)
  let sent := (s1.txbuf.drainAll).1
  let s2 := (transferAttempt s1 ⟨sent⟩).1
  match (fileRead s2 ⟨[]⟩ sent.length).1 with
  | .bytes l => l
  | _ => []

/-- A sequence of writes on an open channel accumulates the
concatenation of the written byte lists in the tx ring buffer and
changes nothing else. -/
theorem foldl_write_eq (writes : List (List Nat)) :
    ∀ s : ChannelState, s.closed = false →
      writes.foldl (fun s w => (write s w).2) s
        = { s with txbuf := s.txbuf.pushList writes.flatten } := by
  induction writes with
  | nil => intro s _; simp [RingBuffer.pushList]
  | cons w ws ih =>
    intro s hs
    have hw : (write s w).2 = { s with txbuf := s.txbuf.pushList w } := by
      simp [write, hs]
    show ws.foldl _ ((write s w).2) = _
    rw [hw, ih _ (by simp [hs])]
    show _ = { s with txbuf := s.txbuf.pushList (w :: ws).flatten }
    have : (w :: ws).flatten = w ++ ws.flatten := by simp
    rw [this, RingBuffer.pushList_append]

/-! ## Claims -/

/-- Reading `length = count` bytes out of a channel whose rx ring
buffer holds exactly `J` returns `J` (and an empty rx buffer blocks). -/
theorem readBack (s : ChannelState) (J : List Nat) (hc : s.closed = false)
    (hb : s.blocking = true) (hJ : s.rxbuf.data = J) :
    (match (fileRead s ⟨[]⟩ J.length).1 with
     | .bytes l => l
     | _ => []) = J := by
  cases J with
  | nil =>
    have hav : s.rxbuf.available = 0 := by simp [RingBuffer.available, hJ]
    simp [fileRead, hc, hb, hav, hJ, transferAttempt, RingBuffer.pushList,
      RingBuffer.available]
  | cons x xs =>
    have hav : 0 < s.rxbuf.available := by simp [RingBuffer.available, hJ]
    simp [fileRead, hc, hav, RingBuffer.popN_eq, hJ]

/-- C1: for every sequence of writes whose total length does not exceed
the channel's buffer capacity, a subsequent read returns exactly the
bytes that were written, in the same order — the FIFO round-trip
through the tx and rx paths loses, duplicates and reorders nothing. -/
theorem c1_fifo_round_trip (capacity : Nat) (writes : List (List Nat))
    (h : writes.flatten.length ≤ capacity) :
    roundTrip capacity writes = writes.flatten := by
  unfold roundTrip
  rw [foldl_write_eq writes (init capacity) rfl]
  have htx : ((init capacity).txbuf.pushList writes.flatten).data
      = writes.flatten := by
    have := RingBuffer.pushList_data_of_le writes.flatten (init capacity).txbuf
      (by simpa [init, RingBuffer.empty] using h)
    simpa [init, RingBuffer.empty] using this
  have hrx : ((init capacity).rxbuf.pushList writes.flatten).data
      = writes.flatten := htx
  simp only [RingBuffer.drainAll_eq, htx]
  exact readBack _ writes.flatten (by simp [transferAttempt, init])
    (by simp [transferAttempt, init])
    (by simp only [transferAttempt]; exact hrx)

/-- Witness for C1 at a concrete input. -/
theorem c1_fifo_round_trip_witness :
    ([[1, 2], [], [3]] : List (List Nat)).flatten.length ≤ 4
    ∧ roundTrip 4 [[1, 2], [], [3]] = ([[1, 2], [], [3]] : List (List Nat)).flatten :=
  ⟨by decide, c1_fifo_round_trip 4 [[1, 2], [], [3]] (by decide)⟩

/-- C2: a write whose total length reaches or exceeds the tx capacity
overwrites the oldest unconsumed bytes, so the tx buffer afterwards
holds exactly the most recent `capacity` bytes; in particular a channel
of buffer size 8, after writing the 10 bytes 0..9, has tx buffer
exactly 2..9. -/
theorem c2_tx_overwrite_most_recent (c : Nat) (l : List Nat)
    (hC : 0 < c) (h : c ≤ l.length) :
    ((write (init c) l).2.txbuf.data = l.drop (l.length - c)
      ∧ ((write (init c) l).2.txbuf.data).length = c)
    ∧ (write (init 8) [0, 1, 2, 3, 4, 5, 6, 7, 8, 9]).2.txbuf.data
        = [2, 3, 4, 5, 6, 7, 8, 9] := by
  refine ⟨?_, by decide⟩
  have hw : (write (init c) l).2
      = { init c with txbuf := (init c).txbuf.pushList l } := by
    simp [write, init]
  have hd : ((init c).txbuf.pushList l).data = l.drop (l.length - c) := by
    have := RingBuffer.pushList_data l (init c).txbuf
      (by simp [init, RingBuffer.empty]) (by simpa [init, RingBuffer.empty])
    simpa [init, RingBuffer.empty] using this
  rw [hw]
  refine ⟨hd, ?_⟩
  show ((init c).txbuf.pushList l).data.length = c
  rw [hd, List.length_drop]
  omega

/-- Witness for C2 at a concrete input. -/
theorem c2_tx_overwrite_most_recent_witness :
    (0 < 3 ∧ 3 ≤ ([5, 6, 7, 8] : List Nat).length)
    ∧ (((write (init 3) [5, 6, 7, 8]).2.txbuf.data
          = ([5, 6, 7, 8] : List Nat).drop (([5, 6, 7, 8] : List Nat).length - 3)
        ∧ ((write (init 3) [5, 6, 7, 8]).2.txbuf.data).length = 3)
      ∧ (write (init 8) [0, 1, 2, 3, 4, 5, 6, 7, 8, 9]).2.txbuf.data
          = [2, 3, 4, 5, 6, 7, 8, 9]) :=
  ⟨⟨by decide, by decide⟩,
   c2_tx_overwrite_most_recent 3 [5, 6, 7, 8] (by decide) (by decide)⟩

/-- C4: `writeable()` returns 1 in every channel state, however full
the tx buffer is — overflow is handled by the lossy overwrite policy,
not by backpressure — and it changes no state. -/
theorem c4_writeable_always_true (s : ChannelState) :
    (writeable s).1 = 1 ∧ (writeable s).2 = s :=
  ⟨rfl, rfl⟩

/-- C5: `readable()` returns 1 exactly when the rx ring buffer count is
positive, and it neither triggers a transfer nor changes any channel
state (its result state is the input state, and no peer interaction
occurs). -/
theorem c5_readable_iff_rx_nonempty (s : ChannelState) :
    ((readable s).1 = 1 ↔ 0 < s.rxbuf.available) ∧ (readable s).2 = s := by
  refine ⟨⟨?_, ?_⟩, rfl⟩
  · intro h1
    by_contra hn
    simp [readable, hn] at h1
  · intro h0
    simp [readable, h0]

/-- C6: `seek(offset, whence)` fails with the negative "not seekable"
error for every offset and whence; it succeeds on no input. -/
theorem c6_seek_never_succeeds (s : ChannelState) (offset whence : Int) :
    seek s offset whence = -ESPIPE ∧ seek s offset whence < 0 :=
  ⟨rfl, show (-ESPIPE : Int) < 0 by decide⟩

/-- C7: after `close()`, every subsequent read or write fails with the
negative bad-descriptor error (leaving the state unchanged), and
`close()` is idempotent: closing again returns 0 and leaves the state
exactly as after the first close. -/
theorem c7_close_bad_descriptor_idempotent (s : ChannelState) (p : Peer)
    (n : Nat) (data : List Nat) :
    fileRead (close s).2 p n = (.badDescriptor, (close s).2, p)
    ∧ ReadResult.retValue .badDescriptor = some (-EBADF)
    ∧ (-EBADF : Int) < 0
    ∧ write (close s).2 data = (-EBADF, (close s).2)
    ∧ close (close s).2 = (0, (close s).2) := by
  refine ⟨?_, rfl, by decide, ?_, rfl⟩
  · simp [fileRead, close]
  · simp [write, close]

/-- C3: `read(buffer, length)` on an open channel: with rx data present
it immediately pops up to `length` bytes and returns the count (no
transfer — the peer is untouched); with an empty rx buffer on a
non-blocking handle it fails with the negative would-block error; with
an empty rx buffer on a blocking handle it performs a transfer attempt
first — if the peer had data the call returns those bytes, otherwise it
waits with no built-in timeout (no value is ever returned by
timeout). -/
theorem c3_read_blocking_semantics (s : ChannelState) (p : Peer) (n : Nat)
    (hc : s.closed = false) :
    (0 < s.rxbuf.available →
      fileRead s p n
        = (.bytes (s.rxbuf.popN n).1, { s with rxbuf := (s.rxbuf.popN n).2 }, p)
      ∧ ((s.rxbuf.popN n).1).length = min n s.rxbuf.available)
    ∧ (s.rxbuf.available = 0 → s.blocking = false →
        fileRead s p n = (.wouldBlock, s, p)
        ∧ ReadResult.retValue .wouldBlock = some (-EAGAIN)
        ∧ (-EAGAIN : Int) < 0)
    ∧ (s.rxbuf.available = 0 → s.blocking = true → p.pending = [] →
        (fileRead s p n).1 = .blockedWaiting
        ∧ ReadResult.retValue .blockedWaiting = none)
    ∧ (s.rxbuf.available = 0 → s.blocking = true → p.pending ≠ [] →
        p.pending.length ≤ s.rxbuf.capacity →
        (fileRead s p n).1 = .bytes (p.pending.take n)) := by
  refine ⟨?_, ?_, ?_, ?_⟩
  · intro hav
    constructor
    · simp [fileRead, hc, hav]
    · simp [RingBuffer.popN_eq, RingBuffer.available, List.length_take]
  · intro hav hb
    refine ⟨by simp [fileRead, hc, hb, hav], rfl, by decide⟩
  · intro hav hb hpend
    have hd : s.rxbuf.data = [] := by
      simpa [RingBuffer.available, List.length_eq_zero] using hav
    refine ⟨?_, rfl⟩
    simp [fileRead, hc, hb, hd, hpend, transferAttempt, RingBuffer.pushList,
      RingBuffer.available]
  · intro hav hb hpend hcap
    have hd : s.rxbuf.data = [] := by
      simpa [RingBuffer.available, List.length_eq_zero] using hav
    have hpush : (s.rxbuf.pushList p.pending).data = p.pending := by
      have := RingBuffer.pushList_data_of_le p.pending s.rxbuf
        (by simp [hd]; omega)
      simpa [hd] using this
    have hnonnil : 0 < p.pending.length := List.length_pos.mpr hpend
    simp [fileRead, hc, hb, hd, transferAttempt, RingBuffer.available, hpush,
      hnonnil, RingBuffer.popN_eq]

/-- Witness for C3: each of the four branches exercised at a concrete
input, all hypotheses discharged. -/
theorem c3_read_blocking_semantics_witness :
    fileRead { init 4 with rxbuf := ⟨4, [9]⟩ } ⟨[]⟩ 1
      = (.bytes [9], { init 4 with rxbuf := ⟨4, []⟩ }, ⟨[]⟩)
    ∧ fileRead { init 4 with blocking := false } ⟨[]⟩ 1
      = (.wouldBlock, { init 4 with blocking := false }, ⟨[]⟩)
    ∧ (fileRead (init 4) ⟨[]⟩ 1).1 = .blockedWaiting
    ∧ (fileRead (init 4) ⟨[7]⟩ 1).1 = .bytes [7] :=
  ⟨((c3_read_blocking_semantics { init 4 with rxbuf := ⟨4, [9]⟩ } ⟨[]⟩ 1
      rfl).1 (by decide)).1,
   ((c3_read_blocking_semantics { init 4 with blocking := false } ⟨[]⟩ 1
      rfl).2.1 rfl rfl).1,
   ((c3_read_blocking_semantics (init 4) ⟨[]⟩ 1 rfl).2.2.1 rfl rfl rfl).1,
   (c3_read_blocking_semantics (init 4) ⟨[7]⟩ 1 rfl).2.2.2 rfl rfl
     (by decide) (by decide)⟩

/-- C8: `getc()` and `get16b()` never block: with no full unit
available in the rx buffer they return the sentinel -1 at once and
leave the state unchanged; otherwise they return the next single 8-bit
unit (`getc`) or 16-bit unit (`get16b`). -/
theorem c8_getc_get16b_never_block (s : ChannelState) :
    (s.rxbuf.available = 0 → getc s = (-1, s) ∧ get16b s = (-1, s))
    ∧ (∀ x xs, s.rxbuf.data = x :: xs →
        getc s = ((x : Int), { s with rxbuf := ⟨s.rxbuf.capacity, xs⟩ }))
    ∧ (s.rxbuf.available ≤ 1 → get16b s = (-1, s))
    ∧ (∀ x y xs, s.rxbuf.data = x :: y :: xs →
        get16b s = (((x + 256 * y : Nat) : Int),
                    { s with rxbuf := ⟨s.rxbuf.capacity, xs⟩ })) := by
  refine ⟨?_, ?_, ?_, ?_⟩
  · intro hav
    have hd : s.rxbuf.data = [] := by
      simpa [RingBuffer.available, List.length_eq_zero] using hav
    constructor
    · simp [getc, RingBuffer.pop, hd]
    · have : s.rxbuf.available < 2 := by omega
      simp [get16b, this]
  · intro x xs hd
    simp [getc, RingBuffer.pop, hd]
  · intro hav
    have : s.rxbuf.available < 2 := by omega
    simp [get16b, this]
  · intro x y xs hd
    have hav : ¬s.rxbuf.available < 2 := by
      simp [RingBuffer.available, hd]
    simp [get16b, hav, RingBuffer.pop, hd]

/-- Witness for C8: the empty-buffer sentinel and the unit reads,
exercised at concrete inputs with all hypotheses discharged. -/
theorem c8_getc_get16b_never_block_witness :
    (getc (init 4) = (-1, init 4) ∧ get16b (init 4) = (-1, init 4))
    ∧ getc { init 4 with rxbuf := ⟨4, [3, 5]⟩ }
        = ((3 : Int), { init 4 with rxbuf := ⟨4, [5]⟩ })
    ∧ get16b { init 4 with rxbuf := ⟨4, [5]⟩ }
        = (-1, { init 4 with rxbuf := ⟨4, [5]⟩ })
    ∧ get16b { init 4 with rxbuf := ⟨4, [3, 5]⟩ }
        = (((3 + 256 * 5 : Nat) : Int), { init 4 with rxbuf := ⟨4, []⟩ }) :=
  ⟨(c8_getc_get16b_never_block (init 4)).1 rfl,
   (c8_getc_get16b_never_block { init 4 with rxbuf := ⟨4, [3, 5]⟩ }).2.1
     3 [5] rfl,
   (c8_getc_get16b_never_block { init 4 with rxbuf := ⟨4, [5]⟩ }).2.2.1
     (by decide),
   (c8_getc_get16b_never_block { init 4 with rxbuf := ⟨4, [3, 5]⟩ }).2.2.2
     3 5 [] rfl⟩

/-- C9: every ring buffer operation preserves the invariant
`0 ≤ count ≤ capacity` (counts are natural numbers, so `0 ≤ count`
holds by construction; `peek` does not produce a new buffer at all, so
it preserves the invariant trivially): `push` under the overwrite
policy, `pop`, and `clear` all leave the count at most the fixed
capacity, and none of them changes the capacity. -/
theorem c9_count_invariant (b : RingBuffer) (x : Nat)
    (h : b.available ≤ b.capacity) (hC : 0 < b.capacity) :
    ((b.push x).available ≤ b.capacity ∧ (b.push x).capacity = b.capacity)
    ∧ (∀ y b', b.pop = some (y, b') →
        b'.available ≤ b.capacity ∧ b'.capacity = b.capacity)
    ∧ (b.clear.available ≤ b.capacity ∧ b.clear.capacity = b.capacity) := by
  refine ⟨⟨?_, RingBuffer.push_capacity b x⟩, ?_, by simp [RingBuffer.clear,
    RingBuffer.available], by simp [RingBuffer.clear]⟩
  · show (b.push x).data.length ≤ b.capacity
    have h' : b.data.length ≤ b.capacity := h
    unfold RingBuffer.push
    split
    · show (b.data ++ [x]).length ≤ b.capacity
      rw [List.length_append]
      simp only [List.length_cons, List.length_nil]
      omega
    · show (b.data.tail ++ [x]).length ≤ b.capacity
      rw [List.length_append, List.length_tail]
      simp only [List.length_cons, List.length_nil]
      omega
  · intro y b' hpop
    unfold RingBuffer.pop at hpop
    cases hd : b.data with
    | nil => rw [hd] at hpop; simp at hpop
    | cons z zs =>
      rw [hd] at hpop
      simp at hpop
      obtain ⟨hz, hb'⟩ := hpop
      subst hb'
      constructor
      · simp [RingBuffer.available]
        have : b.available = zs.length + 1 := by
          simp [RingBuffer.available, hd]
        omega
      · rfl

/-- Witness for C9: push, pop and clear applied to a concrete buffer,
all hypotheses discharged. -/
theorem c9_count_invariant_witness :
    (((⟨2, [4]⟩ : RingBuffer).push 9).available ≤ 2
      ∧ ((⟨2, [4]⟩ : RingBuffer).push 9).capacity = 2)
    ∧ ((⟨2, []⟩ : RingBuffer).available ≤ 2
      ∧ (⟨2, []⟩ : RingBuffer).capacity = 2)
    ∧ ((⟨2, [4]⟩ : RingBuffer).clear.available ≤ 2
      ∧ (⟨2, [4]⟩ : RingBuffer).clear.capacity = 2) :=
  ⟨(c9_count_invariant ⟨2, [4]⟩ 9 (by decide) (by decide)).1,
   (c9_count_invariant ⟨2, [4]⟩ 9 (by decide) (by decide)).2.1 4 ⟨2, []⟩ rfl,
   (c9_count_invariant ⟨2, [4]⟩ 9 (by decide) (by decide)).2.2⟩

/-- C10: the zero-argument `read()` and the bounded `read(max)`
overloads pull words from the SPI port into the internal rx ring buffer
— appending to `_rxbuf` rather than consuming from it, and leaving the
tx buffer alone — and return the number of bytes read from the port and
appended, which for the bounded overload never exceeds `max`. -/
theorem c10_port_read_appends_to_rxbuf (s : ChannelState) (p : Peer) (m : Nat)
    (h : s.rxbuf.available + p.pending.length ≤ s.rxbuf.capacity) :
    ((readFromPort s p (some m)).1 = ((min m p.pending.length : Nat) : Int)
      ∧ (readFromPort s p (some m)).1 ≤ (m : Int)
      ∧ (readFromPort s p (some m)).2.1.rxbuf.data
          = s.rxbuf.data ++ p.pending.take m
      ∧ (readFromPort s p (some m)).2.1.txbuf = s.txbuf)
    ∧ ((readFromPort s p none).1 = (p.pending.length : Int)
      ∧ (readFromPort s p none).2.1.rxbuf.data = s.rxbuf.data ++ p.pending) := by
  unfold RingBuffer.available at h
  refine ⟨⟨?_, ?_, ?_, rfl⟩, ?_, ?_⟩
  · simp [readFromPort]
  · show ((p.pending.take m).length : Int) ≤ (m : Int)
    have h1 : (p.pending.take m).length ≤ m := by
      rw [List.length_take]
      omega
    exact_mod_cast h1
  · show (s.rxbuf.pushList (p.pending.take m)).data = _
    apply RingBuffer.pushList_data_of_le
    rw [List.length_take]
    omega
  · simp [readFromPort]
  · show (s.rxbuf.pushList p.pending).data = _
    exact RingBuffer.pushList_data_of_le p.pending s.rxbuf h

/-- Witness for C10 at a concrete input, all hypotheses discharged. -/
theorem c10_port_read_appends_to_rxbuf_witness :
    ((readFromPort { init 6 with rxbuf := ⟨6, [1]⟩ } ⟨[8, 9, 10]⟩ (some 2)).1 = 2
      ∧ (readFromPort { init 6 with rxbuf := ⟨6, [1]⟩ } ⟨[8, 9, 10]⟩ (some 2)).1
          ≤ 2
      ∧ (readFromPort { init 6 with rxbuf := ⟨6, [1]⟩ } ⟨[8, 9, 10]⟩
          (some 2)).2.1.rxbuf.data = [1, 8, 9]
      ∧ (readFromPort { init 6 with rxbuf := ⟨6, [1]⟩ } ⟨[8, 9, 10]⟩
          (some 2)).2.1.txbuf = (init 6).txbuf)
    ∧ ((readFromPort { init 6 with rxbuf := ⟨6, [1]⟩ } ⟨[8, 9, 10]⟩ none).1 = 3
      ∧ (readFromPort { init 6 with rxbuf := ⟨6, [1]⟩ } ⟨[8, 9, 10]⟩
          none).2.1.rxbuf.data = [1, 8, 9, 10]) :=
  c10_port_read_appends_to_rxbuf { init 6 with rxbuf := ⟨6, [1]⟩ } ⟨[8, 9, 10]⟩ 2
    (by decide)

end BufferedSpiModel
